import Mathlib

/-!
Verification development for the `hsm` hierarchical-state-machine engine
(`hsm.hpp`).

The C++ engine works on a static forest of `State` objects holding raw
parent pointers, a table of `Action` bindings linked into per-state lists,
and a `StateMachine` with two registers (`state`, the active leaf, and
`target`, the scratch transition slot).

Shallow embedding choices:
* A `State*` pointer is represented by the state's ancestor chain, a
  `List Nat` of node identifiers beginning with the node itself; the empty
  list stands for the null pointer.  Parents are fixed at construction in
  the C++ code (a constructor can only reference an already-constructed
  parent), so every ancestor chain is finite and this representation is
  exact: `->parent` is `List.tail`, pointer equality is list equality.
* `std::function` handlers are modelled as a numeric label (so that
  invocations can be traced) together with a function giving the optional
  target the handler passes to `StateMachine::transition(State&)`.
* The engine's mutable registers and the observable effects are carried in
  an explicit `EngineSt` record: `state` and `target` mirror the two
  `StateMachine` fields, `trace` is the ordered log of handler invocations
  (label and message event), and `ok` is the conjunction of all `assert`
  conditions evaluated so far (the functions compute the release-mode,
  `NDEBUG` behaviour; `ok = false` records that a debug build would have
  trapped).
* The recursion `transition -> callAction(Init) -> transition` is bounded
  by explicit fuel; `none` means the engine did not finish within the
  given fuel.
-/

namespace Hsm

/-- A state pointer: the ancestor chain of the state, itself first.
`[]` is the null pointer. -/
abbrev StateRef := List Nat

/-- `hsm::State::getPrev`: the parent, null for roots and for null. -/
def getPrev : StateRef → StateRef
  | [] => []
  | _ :: p => p

/-- `hsm::State::getLevel`: number of nodes on the chain ending at the
given state (0 for null). -/
def getLevel : StateRef → Nat
  | [] => 0
  | _ :: p => getLevel p + 1

/-- The depth-equalisation loops of `hsm::State::getRoot`: walk `n` steps
towards the root. -/
def upBy : Nat → StateRef → StateRef
  | 0, s => s
  | n + 1, s => upBy n (getPrev s)

/-- The lockstep loop of `hsm::State::getRoot`: both pointers (already at
equal levels) walk up together until they coincide. -/
def lockstep : StateRef → StateRef → StateRef
  | [], _ => []
  | a :: sp, o => if a :: sp = o then a :: sp else lockstep sp (getPrev o)

/-- `hsm::State::getRoot`: least common ancestor of two states, null when
they share none. -/
def getRoot (s o : StateRef) : StateRef :=
  lockstep (upBy (getLevel s - getLevel o) s) (upBy (getLevel o - getLevel s) o)

/-- `hsm::State::getNext`: the child of `state` on the branch leading to
`sign`; walks `sign` upward until its parent is `state`. -/
def getNext (state : StateRef) : StateRef → StateRef
  | [] => []
  | a :: p => if state = p then a :: p else getNext state p

/-- Modelled from the spec: the external `Message` type (declared in
`hsmconfig.hpp`, not part of the engine sources) carries an event
identifier and an event-specific payload that is opaque to the engine. -/
structure Msg where
  event : Nat
  payload : Nat
deriving Repr, DecidableEq

/-- Modelled from the spec: the `Message` constructor used as
`{message_, Event::Exit}` in the engine — a copy of the message with the
event identifier replaced and the payload kept. -/
def Msg.withEvent (m : Msg) (e : Nat) : Msg :=
  { m with event := e }

/-- Modelled from the spec: a default-constructed `Message`, as passed by
`start` and by the `Stop` branch of `message` (`{}`); its event identifier
is never consulted because the engine overrides it before every lookup. -/
def defaultMsg : Msg := ⟨0, 0⟩

/-- `hsm::Variant`: a binding's payload, either a direct-transition target
state or an event handler.  A handler is modelled by a trace label and by
the optional state it passes to `StateMachine::transition(State&)` while
running (the out-of-band transition request). -/
inductive Variant where
  | state : StateRef → Variant
  | handler : Nat → (Msg → Option StateRef) → Variant

/-- `hsm::Action`: one `(owner, event) → variant` binding. -/
structure Action where
  owner : StateRef
  event : Nat
  act : Variant

/-- The ordered log of handler invocations: label and message event. -/
abbrev Trace := List (Nat × Nat)

/-- The observable machine state: the two `StateMachine` registers plus
the ghost handler-invocation trace and the conjunction of all `assert`
conditions met so far. -/
structure EngineSt where
  state : StateRef
  target : StateRef
  trace : Trace
  ok : Bool
deriving Repr, DecidableEq

/-- Event identifiers of `enum hsm::Event`:
`ALL = 0`, `Stop = 1`, `Exit = 2`, `Entry = 3`, `Init = 4`, `User = 5`. -/
def evUser : Nat := 5

/-- The scan loop of `hsm::Action::getAction`: advance while the entry
matches neither the requested event nor `Event::ALL`. -/
def scanQueue (e : Nat) : List Action → Option Action
  | [] => none
  | a :: rest => if a.event ≠ e ∧ a.event ≠ 0 then scanQueue e rest else some a

/-- A state's linked action queue.  `Action::link` prepends each binding
of the configuration table to its owner's queue exactly once, in table
order, so the queue holds the owner's bindings in reverse declaration
order (theorem `linkAll_queueOf` below derives this from the
pointer-level model of `link`: `linkOne`/`linkAll`). -/
def queueOf (tab : List Action) (s : StateRef) : List Action :=
  (tab.filter (fun a => decide (a.owner = s))).reverse

/-- `hsm::Action::getAction`: first binding in the state's own queue whose
event matches the request exactly or is the wildcard `ALL`; none for the
null state or when no entry matches. -/
def getAction (tab : List Action) (s : StateRef) (e : Nat) : Option Action :=
  if s = [] then none else scanQueue e (queueOf tab s)

/-- `hsm::Action::Visitor`: run the variant.  A direct-transition variant
returns its state; a handler runs (logging itself, possibly overwriting
the `target` register) and returns the null state. -/
def runVariant (v : Variant) (m : Msg) (es : EngineSt) : Option StateRef × EngineSt :=
  match v with
  | .state t => (some t, es)
  | .handler hid f =>
      (none, { es with
                trace := es.trace ++ [(hid, m.event)]
                target := (f m).getD es.target })

/-- `hsm::Action::callHandler`: look the event up; null if unbound, else
run the variant and turn a handler's null result into the state itself. -/
def callHandler (tab : List Action) (s : StateRef) (m : Msg) (es : EngineSt) :
    Option StateRef × EngineSt :=
  match getAction tab s m.event with
  | none => (none, es)
  | some a =>
      match runVariant a.act m es with
      | (t0, es2) => (some (t0.getD s), es2)

/-- Outcome of resolving one candidate state, as computed by
`hsm::StateMachine::callAction`: no binding at all, handled without a
transition, or a requested transition to a new target. -/
inductive Resolution where
  | unhandled : Resolution
  | handled : Resolution
  | redirect : StateRef → Resolution
deriving Repr, DecidableEq

/-- The target adjustment of `hsm::StateMachine::callAction`:
`if (target_ == state_) target_ = StateMachine::target;` — a handler's
null return (mapped to the candidate by `callHandler`) defers to whatever
the handler wrote into the `target` register. -/
def adjustTarget (cand t0 slot : StateRef) : StateRef :=
  if t0 = cand then slot else t0

/-- The resolution part of `hsm::StateMachine::callAction`: reset the
`target` register to the candidate, call the handler, then decide between
"no binding", "handled, no transition" (an adjusted target equal to the
candidate) and a requested transition. -/
def resolveCand (tab : List Action) (cand : StateRef) (m : Msg) (es : EngineSt) :
    Resolution × EngineSt :=
  match callHandler tab cand m { es with target := cand } with
  | (none, es2) => (.unhandled, es2)
  | (some t0, es2) =>
      if adjustTarget cand t0 es2.target = cand then (.handled, es2)
      else (.redirect (adjustTarget cand t0 es2.target), es2)

/-- The contract assertion guarding the transition branch of
`hsm::StateMachine::callAction`:
`assert(message_.event >= Event::User || target_->parent == state_)`. -/
def transAssertOk (e : Nat) (cand t : StateRef) : Bool :=
  decide (evUser ≤ e) || decide (getPrev t = cand)

/-- `hsm::StateMachine::callAction`, parameterised by the recursive entry
into `transition` (`recT`): resolve the candidate; an unbound event
reports `false`, a resolution without transition reports `true`, and a
requested transition checks the contract assertion and recurses. -/
def doCallAction (recT : StateRef → Msg → EngineSt → Option EngineSt)
    (tab : List Action) (cand : StateRef) (m : Msg) (es : EngineSt) :
    Option (EngineSt × Bool) :=
  match resolveCand tab cand m es with
  | (.unhandled, es1) => some (es1, false)
  | (.handled, es1) => some (es1, true)
  | (.redirect t, es1) =>
      let es2 := { es1 with ok := es1.ok && transAssertOk m.event cand t }
      (recT t m es2).map (fun es3 => (es3, true))

/-- The exit cascade of `hsm::StateMachine::transition`: while the cursor
differs from `root`, resolve `Event::Exit` against it and move to its
parent.  `none` models the C++ loop never terminating (the cursor reached
null but `root` was not on its chain). -/
def exitLoop (tab : List Action) (root : StateRef) (m : Msg) :
    StateRef → EngineSt → Option (StateRef × EngineSt)
  | s, es =>
    if s = root then some (s, es)
    else
      match s with
      | [] => none
      | a :: p =>
          exitLoop tab root m p (callHandler tab (a :: p) (m.withEvent 2) es).2

/-- The entry cascade of `hsm::StateMachine::transition`: while the cursor
differs from `next`, step to the child towards `next` and resolve
`Event::Entry` against it.  The loop is bounded by explicit fuel;
`transitionF` supplies `getLevel next`, which is enough for every cascade
the engine can start. -/
def entryLoop (tab : List Action) (next : StateRef) (m : Msg) :
    Nat → StateRef → EngineSt → Option (StateRef × EngineSt)
  | fuel, s, es =>
    if s = next then some (s, es)
    else
      match fuel with
      | 0 => none
      | fuel + 1 =>
          entryLoop tab next m fuel (getNext s next)
            (callHandler tab (getNext s next) (m.withEvent 3) es).2

/-- `hsm::StateMachine::transition(State*, const Message&)`: exit cascade
up to the least common ancestor, entry cascade down to the target, then a
full `Event::Init` resolution against the new active state, recursing on
a requested transition.  Fuel bounds the `Init` recursion depth. -/
def transitionF (tab : List Action) : Nat → StateRef → Msg → EngineSt → Option EngineSt
  | 0, _, _, _ => none
  | fuel + 1, next, m, es =>
      match exitLoop tab (getRoot es.state next) m es.state es with
      | none => none
      | some (_, es1) =>
          match entryLoop tab next m (getLevel next) (getRoot es.state next) es1 with
          | none => none
          | some (_, es2) =>
              (doCallAction (transitionF tab fuel) tab next (m.withEvent 4)
                  { es2 with state := next }).map (fun r => r.1)

/-- The bubbling loop of `hsm::StateMachine::eventHandler`: try the
candidates from the active leaf upward until `callAction` reports the
event handled. -/
def bubbleF (tab : List Action) (fuel : Nat) (m : Msg) :
    StateRef → EngineSt → Option EngineSt
  | [], es => some es
  | a :: p, es =>
      match doCallAction (transitionF tab fuel) tab (a :: p) m es with
      | none => none
      | some (es1, true) => some es1
      | some (es1, false) => bubbleF tab fuel m p es1

/-- `hsm::StateMachine::eventHandler`: bubble starting at the active
state. -/
def eventHandlerF (tab : List Action) (fuel : Nat) (m : Msg) (es : EngineSt) :
    Option EngineSt :=
  bubbleF tab fuel m es.state es

/-- `hsm::StateMachine::message`: record the two dispatch assertions
(engine active; event is `Stop` or a user event), then route user events
to the bubbling resolver and `Stop` to `transition(nullptr, {})`.  Any
other event reaches neither branch. -/
def messageF (tab : List Action) (fuel : Nat) (m : Msg) (es : EngineSt) :
    Option EngineSt :=
  let es0 := { es with
                ok := es.ok &&
                  (decide (es.state ≠ []) &&
                    (decide (m.event = 1) || decide (evUser ≤ m.event))) }
  if evUser ≤ m.event then eventHandlerF tab fuel m es0
  else if m.event = 1 then transitionF tab fuel [] defaultMsg es0
  else some es0

/-- `hsm::StateMachine::start`: record the two start assertions (engine
halted; the initial state has no parent), then — when halted — transition
towards the initial state with a default message.  The one-time linking
step is the identity on the level of queue contents (`queueOf`); its
pointer-level behaviour is modelled separately by `linkOne`/`linkAll`. -/
def startF (tab : List Action) (fuel : Nat) (root : StateRef) (es : EngineSt) :
    Option EngineSt :=
  let es0 := { es with
                ok := es.ok &&
                  (decide (es.state = []) && decide (es.state = getPrev root)) }
  if es0.state = [] then transitionF tab fuel root defaultMsg es0
  else some es0

/-! ### Pointer-level model of `hsm::Action::link`

`Action::link` manipulates raw pointers: each action has a `next` field
(null-initialised) and each state a `queue` head pointer.  `link` is
guarded by `if (Action::next == nullptr)` and then prepends the action to
its owner's queue.  Actions are identified by their index in the
configuration table. -/

/-- The mutable linking state: the `next` pointer of every action (by
table index) and the `queue` head pointer of every state (as an
association list, most recent write first). -/
structure LinkSt where
  nexts : List (Option Nat)
  heads : List (StateRef × Nat)
deriving Repr, DecidableEq

/-- `hsm::State::getQueue` during linking: head of the state's queue. -/
def getQueueHead (hs : List (StateRef × Nat)) (s : StateRef) : Option Nat :=
  match hs.find? (fun p => decide (p.1 = s)) with
  | some p => some p.2
  | none => none

/-- `hsm::Action::link` for the action at index `i`: if its `next` pointer
is still null, set it to the owner's current queue head and make the
action the new head. -/
def linkOne (tab : List Action) (ls : LinkSt) (i : Nat) : LinkSt :=
  match tab[i]? with
  | none => ls
  | some a =>
      match ls.nexts[i]? with
      | some none =>
          { nexts := ls.nexts.set i (getQueueHead ls.heads a.owner)
            heads := (a.owner, i) :: ls.heads }
      | _ => ls

/-- The linking state before any `link` call: all `next` pointers and all
queue heads are null. -/
def initLinkSt (tab : List Action) : LinkSt :=
  ⟨List.replicate tab.length none, []⟩

/-- The linking loop of `hsm::StateMachine::start`: `link` every action of
the table, in table order. -/
def linkAll (tab : List Action) (ls : LinkSt) : LinkSt :=
  (List.range tab.length).foldl (linkOne tab) ls

/-- Read a state's action queue off the pointer structure: follow `next`
pointers from the queue head, collecting table indices, giving up after
`fuel` steps (a cyclic queue never reaches null). -/
def chainFrom (nexts : List (Option Nat)) : Nat → Option Nat → List Nat
  | 0, _ => []
  | _, none => []
  | fuel + 1, some i => i :: chainFrom nexts fuel (nexts[i]?.getD none)

/-! ### Spec-side helpers used to state the claims -/

/-- The candidate resolution outcome alone; `resolveCand` never lets the
incoming register file influence it (lemma `resolveCand_fst`). -/
def resolveT (tab : List Action) (cand : StateRef) (m : Msg) : Resolution :=
  (resolveCand tab cand m ⟨[], [], [], true⟩).1

/-- The first state, from the given one upward, holding any binding
(exact or wildcard) for the event — the state that consumes a bubbled
event. -/
def firstHandler (tab : List Action) (e : Nat) : StateRef → Option StateRef
  | [] => none
  | a :: p => if (getAction tab (a :: p) e).isSome then some (a :: p) else firstHandler tab e p

/-- The message carried by the default-descent `Init` resolutions started
from `start` (`{}` with the event overridden to `Event::Init`). -/
def initMsg : Msg := ⟨4, 0⟩

/-- The default-descent chain: repeatedly follow the `Init` resolution of
the current state while it requests a transition.  `m4` is the (already
`Init`-evented) message in flight; `none` means the descent did not settle
within the fuel. -/
def initDescent (tab : List Action) (m4 : Msg) : Nat → StateRef → Option StateRef
  | 0, _ => none
  | fuel + 1, st =>
      match resolveT tab st m4 with
      | .redirect t => initDescent tab m4 fuel t
      | _ => some st

/-- The chain of states the exit cascade visits when moving from `s` up to
its ancestor `root`: `s` first, `root` excluded. -/
def upChain (root : StateRef) : StateRef → List StateRef
  | [] => []
  | a :: p => if a :: p = root then [] else (a :: p) :: upChain root p

/-- An injective numeric label for a state, used by the instrumented
tables below. -/
def encodeSt : StateRef → Nat
  | [] => 0
  | a :: p => Nat.pair a (encodeSt p) + 1

/-- A pure handler that only logs: it never requests a transition. -/
def silentHandler (st : StateRef) : Variant :=
  .handler (encodeSt st) (fun _ => none)

/-- An instrumented configuration table: every state of `univ` gets a
side-effect-only `Exit` handler and a side-effect-only `Entry` handler
labelled with the state's code. -/
def instrTab (univ : List StateRef) : List Action :=
  univ.map (fun st => ⟨st, 2, silentHandler st⟩) ++
    univ.map (fun st => ⟨st, 3, silentHandler st⟩)

/-- The trace the instrumented exit cascade from `s` to `root` writes. -/
def exitTrace (root s : StateRef) : Trace :=
  (upChain root s).map (fun st => (encodeSt st, 2))

/-- The trace the instrumented entry cascade from `root` to `next`
writes. -/
def entryTrace (root next : StateRef) : Trace :=
  ((upChain root next).reverse).map (fun st => (encodeSt st, 3))

/-- Concrete fixture: state `[1]` declares an exact binding for event `5`
first and a wildcard (`ALL`) binding second, so the queue (reverse
declaration order) holds the wildcard first. -/
def c5tab : List Action :=
  [⟨[1], 5, .state [2, 1]⟩, ⟨[1], 0, .state [3, 1]⟩]

/-- Concrete fixture: a single binding, for the linking model. -/
def c6tab : List Action :=
  [⟨[1], 5, .state [2, 1]⟩]

/-- Concrete fixture: only the parent `[2]` of the leaf `[1, 2]` has a
binding (for user event `7`). -/
def c2tab : List Action :=
  [⟨[2], 7, .state [9]⟩]

/-- Concrete fixture: the root `[1]` has a direct-transition `Init`
binding to its child `[2, 1]`, which has no `Init` binding. -/
def c4tab : List Action :=
  [⟨[1], 4, .state [2, 1]⟩]

/-- Concrete fixture: the state `[1]` resolves the system event `Init` to
its immediate child `[9, 1]`. -/
def c9tab : List Action :=
  [⟨[1], 4, .state [9, 1]⟩]

/-! ### Basic facts about the chain representation -/

theorem getPrev_eq_tail (s : StateRef) : getPrev s = s.tail := by
  cases s <;> rfl

theorem getLevel_eq_length (s : StateRef) : getLevel s = s.length := by
  induction s with
  | nil => rfl
  | cons a p ih => simp [getLevel, ih]

theorem upBy_eq_drop (n : Nat) (s : StateRef) : upBy n s = s.drop n := by
  induction n generalizing s with
  | zero => rfl
  | succ n ih =>
      rw [upBy, ih, getPrev_eq_tail, ← List.drop_one, List.drop_drop,
        Nat.add_comm]

theorem suffix_eq_of_length {C A : StateRef} (h : C <:+ A)
    (hl : A.length ≤ C.length) : C = A := by
  rw [List.suffix_iff_eq_drop] at h
  rw [h]
  have : A.length - C.length = 0 := by omega
  rw [this, List.drop_zero]

theorem suffix_total {A C D : StateRef} (hC : C <:+ A) (hD : D <:+ A)
    (h : C.length ≤ D.length) : C <:+ D := by
  have h1 := hC.length_le
  have h2 := hD.length_le
  rw [List.suffix_iff_eq_drop] at hC hD
  have : C = D.drop (D.length - C.length) := by
    rw [hC, hD, List.drop_drop, List.length_drop, List.length_drop]
    congr 1
    omega
  rw [this]
  exact List.drop_suffix _ _

theorem lockstep_lcs : ∀ s o : StateRef, s.length = o.length →
    lockstep s o <:+ s ∧ lockstep s o <:+ o ∧
      ∀ c : StateRef, c <:+ s → c <:+ o → c <:+ lockstep s o := by
  intro s
  induction s with
  | nil =>
      intro o h
      have : o = [] := by
        cases o with
        | nil => rfl
        | cons b op => simp at h
      subst this
      refine ⟨List.suffix_rfl, List.suffix_rfl, ?_⟩
      intro c hc _
      exact hc
  | cons a sp ih =>
      intro o h
      cases o with
      | nil => simp at h
      | cons b op =>
          by_cases heq : a :: sp = b :: op
          · rw [lockstep, if_pos heq]
            exact ⟨List.suffix_rfl, heq ▸ List.suffix_rfl, fun c hc _ => hc⟩
          · have hl : sp.length = op.length := by
              simp only [List.length_cons] at h
              omega
            rw [lockstep, if_neg heq]
            have hprev : getPrev (b :: op) = op := rfl
            rw [hprev]
            obtain ⟨h1, h2, h3⟩ := ih op hl
            refine ⟨h1.trans (List.suffix_cons a sp), h2.trans (List.suffix_cons b op), ?_⟩
            intro c hc1 hc2
            rcases List.suffix_cons_iff.mp hc1 with hc1' | hc1'
            · exfalso
              apply heq
              have hco : (a :: sp) <:+ b :: op := hc1' ▸ hc2
              exact (suffix_eq_of_length hco (by simp [h])).symm ▸ rfl
            · rcases List.suffix_cons_iff.mp hc2 with hc2' | hc2'
              · exfalso
                apply heq
                have hco : (b :: op) <:+ a :: sp := hc2' ▸ hc1
                exact (suffix_eq_of_length hco (by simp [h])).symm
              · exact h3 c hc1' hc2'

theorem getRoot_lcs (A B : StateRef) :
    getRoot A B <:+ A ∧ getRoot A B <:+ B ∧
      ∀ C : StateRef, C <:+ A → C <:+ B → C <:+ getRoot A B := by
  unfold getRoot
  rw [upBy_eq_drop, upBy_eq_drop, getLevel_eq_length, getLevel_eq_length]
  have hlen : (A.drop (A.length - B.length)).length
      = (B.drop (B.length - A.length)).length := by
    rw [List.length_drop, List.length_drop]
    omega
  obtain ⟨h1, h2, h3⟩ := lockstep_lcs _ _ hlen
  have hA : A.drop (A.length - B.length) <:+ A := List.drop_suffix _ _
  have hB : B.drop (B.length - A.length) <:+ B := List.drop_suffix _ _
  refine ⟨h1.trans hA, h2.trans hB, ?_⟩
  intro C hCA hCB
  have hCl1 := hCA.length_le
  have hCl2 := hCB.length_le
  have hCA' : C <:+ A.drop (A.length - B.length) := by
    apply suffix_total hCA hA
    rw [List.length_drop]
    omega
  have hCB' : C <:+ B.drop (B.length - A.length) := by
    apply suffix_total hCB hB
    rw [List.length_drop]
    omega
  exact h3 C hCA' hCB'

theorem getRoot_suffix_left (A B : StateRef) : getRoot A B <:+ A :=
  (getRoot_lcs A B).1

theorem getRoot_suffix_right (A B : StateRef) : getRoot A B <:+ B :=
  (getRoot_lcs A B).2.1

theorem getRoot_nil_right (A : StateRef) : getRoot A [] = [] := by
  have := getRoot_suffix_right A []
  simpa using this

theorem lockstep_self (s : StateRef) : lockstep s s = s := by
  cases s with
  | nil => rfl
  | cons a p => rw [lockstep, if_pos rfl]

theorem getRoot_sibling {x y : Nat} (p : StateRef) (h : x ≠ y) :
    getRoot (x :: p) (y :: p) = p := by
  unfold getRoot
  have hlev : getLevel (x :: p) = getLevel (y :: p) := by simp [getLevel]
  rw [hlev, Nat.sub_self, upBy, upBy]
  have hne : x :: p ≠ y :: p := by
    intro hxy
    exact h (List.head_eq_of_cons_eq hxy)
  rw [lockstep, if_neg hne]
  have : getPrev (y :: p) = p := rfl
  rw [this]
  exact lockstep_self p

/-! ### Walking towards a descendant -/

theorem getNext_of_suffix : ∀ {next s : StateRef}, s <:+ next → s ≠ next →
    ∃ a, getNext s next = a :: s ∧ (a :: s) <:+ next := by
  intro next
  induction next with
  | nil =>
      intro s h hne
      rw [List.suffix_nil] at h
      exact absurd h hne
  | cons b np ih =>
      intro s h hne
      by_cases hsp : s = np
      · subst hsp
        exact ⟨b, by rw [getNext, if_pos rfl], List.suffix_rfl⟩
      · have h' : s <:+ np := by
          rcases List.suffix_cons_iff.mp h with h1 | h1
          · exact absurd h1 hne
          · exact h1
        obtain ⟨a, h1, h2⟩ := ih h' hsp
        exact ⟨a, by rw [getNext, if_neg hsp, h1], h2.trans (List.suffix_cons b np)⟩

theorem upChain_self (s : StateRef) : upChain s s = [] := by
  cases s with
  | nil => rfl
  | cons a p => rw [upChain, if_pos rfl]

theorem upChain_nil_arg (root : StateRef) : upChain root [] = [] := rfl

theorem upChain_extend : ∀ {next s : StateRef} {a : Nat}, (a :: s) <:+ next →
    upChain s next = upChain (a :: s) next ++ [a :: s] := by
  intro next
  induction next with
  | nil =>
      intro s a h
      rw [List.suffix_nil] at h
      exact absurd h (by simp)
  | cons b np ih =>
      intro s a h
      have hslen : s.length < (b :: np).length := by
        have := h.length_le
        simp only [List.length_cons] at this ⊢
        omega
      have hs_ne : s ≠ b :: np := by
        intro hh
        rw [hh] at hslen
        exact absurd hslen (by simp)
      rcases List.suffix_cons_iff.mp h with h1 | h1
      · rw [← h1]
        have hne2 : a :: s ≠ s := by
          intro hh
          exact absurd (congrArg List.length hh) (by simp)
        simp only [upChain, if_neg hne2, if_pos rfl, upChain_self]
        simp
      · have has_ne : a :: s ≠ b :: np := by
          intro hh
          have := h1.length_le
          rw [hh] at this
          simp at this
        simp only [upChain, ih h1]
        have hc1 : ¬(b :: np = s) := fun hh => hs_ne hh.symm
        have hc2 : ¬(b = a ∧ np = s) := by
          intro hh
          exact has_ne (by rw [hh.1, hh.2])
        rw [if_neg hc1]
        simp only [List.cons.injEq]
        rw [if_neg hc2]
        simp

/-! ### Engine-state preservation through the handler primitives -/

theorem runVariant_preserves (v : Variant) (m : Msg) (es : EngineSt) :
    (runVariant v m es).2.state = es.state ∧ (runVariant v m es).2.ok = es.ok := by
  cases v <;> simp [runVariant]

theorem callHandler_preserves (tab : List Action) (s : StateRef) (m : Msg)
    (es : EngineSt) :
    (callHandler tab s m es).2.state = es.state ∧
      (callHandler tab s m es).2.ok = es.ok := by
  unfold callHandler
  cases h : getAction tab s m.event with
  | none => simp
  | some a =>
      simp only
      have hr := runVariant_preserves a.act m es
      cases hv : runVariant a.act m es with
      | mk t0 es2 =>
          rw [hv] at hr
          simpa using hr

theorem resolveCand_preserves (tab : List Action) (cand : StateRef) (m : Msg)
    (es : EngineSt) :
    (resolveCand tab cand m es).2.state = es.state ∧
      (resolveCand tab cand m es).2.ok = es.ok := by
  unfold resolveCand
  have h := callHandler_preserves tab cand m { es with target := cand }
  cases hc : callHandler tab cand m { es with target := cand } with
  | mk r es2 =>
      rw [hc] at h
      simp only [EngineSt.state] at h
      cases r with
      | none => simpa using h
      | some t0 =>
          simp only
          split
          · simpa using h
          · simpa using h

/-! ### Candidate resolution: independence of the incoming registers -/

theorem resolveCand_fst (tab : List Action) (cand : StateRef) (m : Msg)
    (es : EngineSt) : (resolveCand tab cand m es).1 = resolveT tab cand m := by
  unfold resolveT resolveCand callHandler runVariant
  cases h : getAction tab cand m.event with
  | none => simp [h]
  | some a =>
      obtain ⟨ow, ev, v⟩ := a
      cases v with
      | state t =>
          simp [h, adjustTarget]
          split <;> rfl
      | handler hid f =>
          simp [h, adjustTarget]
          split <;> rfl

theorem resolveT_unhandled_iff (tab : List Action) (cand : StateRef) (m : Msg) :
    resolveT tab cand m = .unhandled ↔ getAction tab cand m.event = none := by
  unfold resolveT resolveCand callHandler runVariant
  cases h : getAction tab cand m.event with
  | none => simp [h]
  | some a =>
      obtain ⟨ow, ev, v⟩ := a
      cases v with
      | state t =>
          simp only [h]
          split <;> simp_all
      | handler hid f =>
          simp only [h]
          split <;> simp_all

theorem resolveCand_target_irrel (tab : List Action) (cand : StateRef) (m : Msg)
    (es : EngineSt) (t : StateRef) :
    resolveCand tab cand m { es with target := t } = resolveCand tab cand m es := by
  unfold resolveCand
  have h : ({ { es with target := t } with target := cand } : EngineSt)
      = { es with target := cand } := rfl
  rw [h]

theorem doCallAction_target_irrel
    (recT : StateRef → Msg → EngineSt → Option EngineSt) (tab : List Action)
    (cand : StateRef) (m : Msg) (es : EngineSt) (t : StateRef) :
    doCallAction recT tab cand m { es with target := t }
      = doCallAction recT tab cand m es := by
  unfold doCallAction
  rw [resolveCand_target_irrel]

theorem doCallAction_unbound
    (recT : StateRef → Msg → EngineSt → Option EngineSt) (tab : List Action)
    (s : StateRef) (m : Msg) (es : EngineSt)
    (h : getAction tab s m.event = none) :
    doCallAction recT tab s m es = some ({ es with target := s }, false) := by
  unfold doCallAction resolveCand callHandler
  simp [h]

theorem doCallAction_ne_false
    (recT : StateRef → Msg → EngineSt → Option EngineSt) (tab : List Action)
    (s : StateRef) (m : Msg) (es es1 : EngineSt)
    (h : (getAction tab s m.event).isSome) :
    doCallAction recT tab s m es ≠ some (es1, false) := by
  unfold doCallAction
  cases hr : resolveCand tab s m es with
  | mk r es2 =>
      cases r with
      | unhandled =>
          exfalso
          have h1 : (resolveCand tab s m es).1 = .unhandled := by rw [hr]
          rw [resolveCand_fst] at h1
          rw [(resolveT_unhandled_iff tab s m).mp h1] at h
          simp at h
      | handled => simp
      | redirect t =>
          simp only
          cases recT t m { es2 with ok := es2.ok && transAssertOk m.event s t } with
          | none => simp
          | some es3 => simp

/-! ### Termination of the exit and entry cascades -/

theorem exitLoop_some (tab : List Action) (m : Msg) :
    ∀ (s : StateRef) (es : EngineSt) (root : StateRef), root <:+ s →
      ∃ es1, exitLoop tab root m s es = some (root, es1) ∧
        es1.state = es.state ∧ es1.ok = es.ok := by
  intro s
  induction s with
  | nil =>
      intro es root h
      rw [List.suffix_nil] at h
      subst h
      exact ⟨es, by rw [exitLoop]; simp, rfl, rfl⟩
  | cons a p ih =>
      intro es root h
      by_cases heq : (a :: p : StateRef) = root
      · subst heq
        exact ⟨es, by rw [exitLoop]; simp, rfl, rfl⟩
      · have h' : root <:+ p := by
          rcases List.suffix_cons_iff.mp h with h1 | h1
          · exact absurd h1.symm heq
          · exact h1
        obtain ⟨es1, h1, h2, h3⟩ :=
          ih (callHandler tab (a :: p) (m.withEvent 2) es).2 root h'
        have hp := callHandler_preserves tab (a :: p) (m.withEvent 2) es
        refine ⟨es1, ?_, ?_, ?_⟩
        · rw [exitLoop, if_neg heq]
          exact h1
        · rw [h2, hp.1]
        · rw [h3, hp.2]

theorem entryLoop_some (tab : List Action) (m : Msg) (next : StateRef) :
    ∀ (fuel : Nat) (s : StateRef) (es : EngineSt), s <:+ next →
      next.length - s.length ≤ fuel →
      ∃ es1, entryLoop tab next m fuel s es = some (next, es1) ∧
        es1.state = es.state ∧ es1.ok = es.ok := by
  intro fuel
  induction fuel with
  | zero =>
      intro s es hs hf
      have hls := hs.length_le
      have : s = next := suffix_eq_of_length hs (by omega)
      subst this
      exact ⟨es, by rw [entryLoop]; simp, rfl, rfl⟩
  | succ fuel ih =>
      intro s es hs hf
      by_cases heq : s = next
      · subst heq
        exact ⟨es, by rw [entryLoop]; simp, rfl, rfl⟩
      · obtain ⟨a, hg, hsuf⟩ := getNext_of_suffix hs heq
        have hlen : next.length - (getNext s next).length ≤ fuel := by
          rw [hg]
          simp only [List.length_cons]
          omega
        obtain ⟨es1, h1, h2, h3⟩ :=
          ih (getNext s next) (callHandler tab (getNext s next) (m.withEvent 3) es).2
            (hg ▸ hsuf) hlen
        have hp := callHandler_preserves tab (getNext s next) (m.withEvent 3) es
        refine ⟨es1, ?_, ?_, ?_⟩
        · rw [entryLoop, if_neg heq]
          exact h1
        · rw [h2, hp.1]
        · rw [h3, hp.2]

/-! ### Characterising the queue scan -/

theorem scanQueue_eq_some_iff (e : Nat) :
    ∀ (l : List Action) (a : Action),
      scanQueue e l = some a ↔
        ((a.event = e ∨ a.event = 0) ∧
          ∃ l1 l2, l = l1 ++ a :: l2 ∧ ∀ b ∈ l1, ¬(b.event = e ∨ b.event = 0)) := by
  intro l
  induction l with
  | nil =>
      intro a
      constructor
      · intro h
        simp [scanQueue] at h
      · rintro ⟨_, l1, l2, hl, _⟩
        exact absurd hl.symm (by simp)
  | cons a0 rest ih =>
      intro a
      by_cases h0 : a0.event ≠ e ∧ a0.event ≠ 0
      · rw [scanQueue, if_pos h0, ih]
        constructor
        · rintro ⟨hm, l1, l2, hl, hb⟩
          refine ⟨hm, a0 :: l1, l2, by rw [hl]; simp, ?_⟩
          intro b hb'
          rcases List.mem_cons.mp hb' with rfl | hb'
          · intro hc
            rcases hc with hc | hc
            · exact h0.1 hc
            · exact h0.2 hc
          · exact hb b hb'
        · rintro ⟨hm, l1, l2, hl, hb⟩
          cases l1 with
          | nil =>
              exfalso
              simp only [List.nil_append, List.cons.injEq] at hl
              rcases hm with hm | hm
              · exact h0.1 (hl.1 ▸ hm)
              · exact h0.2 (hl.1 ▸ hm)
          | cons c l1' =>
              simp only [List.cons_append, List.cons.injEq] at hl
              refine ⟨hm, l1', l2, hl.2, ?_⟩
              intro b hb'
              exact hb b (List.mem_cons.mpr (Or.inr hb'))
      · rw [scanQueue, if_neg h0]
        have hm0 : a0.event = e ∨ a0.event = 0 := by
          rcases eq_or_ne a0.event e with h1 | h1
          · exact Or.inl h1
          · rcases eq_or_ne a0.event 0 with h2 | h2
            · exact Or.inr h2
            · exact absurd ⟨h1, h2⟩ h0
        constructor
        · intro h
          have ha : a0 = a := by injection h
          subst ha
          exact ⟨hm0, [], rest, rfl, by simp⟩
        · rintro ⟨hm, l1, l2, hl, hb⟩
          cases l1 with
          | nil =>
              simp only [List.nil_append, List.cons.injEq] at hl
              rw [hl.1]
          | cons c l1' =>
              simp only [List.cons_append, List.cons.injEq] at hl
              exact absurd (hl.1 ▸ hm0) (hb c (List.mem_cons.mpr (Or.inl rfl)))

theorem scanQueue_eq_none_iff (e : Nat) :
    ∀ l : List Action,
      scanQueue e l = none ↔ ∀ b ∈ l, ¬(b.event = e ∨ b.event = 0) := by
  intro l
  induction l with
  | nil => simp [scanQueue]
  | cons a0 rest ih =>
      by_cases h0 : a0.event ≠ e ∧ a0.event ≠ 0
      · rw [scanQueue, if_pos h0, ih]
        constructor
        · intro h b hb
          rcases List.mem_cons.mp hb with rfl | hb
          · intro hc
            rcases hc with hc | hc
            · exact h0.1 hc
            · exact h0.2 hc
          · exact h b hb
        · intro h b hb
          exact h b (List.mem_cons.mpr (Or.inr hb))
      · rw [scanQueue, if_neg h0]
        have hm0 : a0.event = e ∨ a0.event = 0 := by
          rcases eq_or_ne a0.event e with h1 | h1
          · exact Or.inl h1
          · rcases eq_or_ne a0.event 0 with h2 | h2
            · exact Or.inr h2
            · exact absurd ⟨h1, h2⟩ h0
        constructor
        · intro h
          exact absurd h (by simp)
        · intro h
          exact absurd hm0 (h a0 (List.mem_cons.mpr (Or.inl rfl)))

/-! ### The instrumented tables -/

theorem encodeSt_inj : ∀ {s t : StateRef}, encodeSt s = encodeSt t → s = t := by
  intro s
  induction s with
  | nil =>
      intro t h
      cases t with
      | nil => rfl
      | cons b q => simp [encodeSt] at h
  | cons a p ih =>
      intro t h
      cases t with
      | nil => simp [encodeSt] at h
      | cons b q =>
          simp only [encodeSt, Nat.add_right_cancel_iff] at h
          obtain ⟨h1, h2⟩ := Nat.pair_eq_pair.mp h
          rw [h1, ih h2]

theorem filter_self_of_nodup :
    ∀ (univ : List StateRef) (st : StateRef), univ.Nodup → st ∈ univ →
      univ.filter (fun u => decide (u = st)) = [st] := by
  intro univ
  induction univ with
  | nil => intro st _ h; simp at h
  | cons u rest ih =>
      intro st hnd hmem
      obtain ⟨hu, hnd'⟩ := List.nodup_cons.mp hnd
      rcases List.mem_cons.mp hmem with rfl | hmem'
      · rw [List.filter_cons, if_pos (by simp)]
        have : rest.filter (fun u => decide (u = st)) = [] := by
          rw [List.filter_eq_nil_iff]
          intro b hb
          simp only [decide_eq_true_eq]
          intro hbst
          exact hu (hbst ▸ hb)
        rw [this]
      · have hne : u ≠ st := by
          intro h
          exact hu (h ▸ hmem')
        rw [List.filter_cons, if_neg (by simp [hne]), ih st hnd' hmem']

theorem filter_nil_of_not_mem :
    ∀ (univ : List StateRef) (st : StateRef), st ∉ univ →
      univ.filter (fun u => decide (u = st)) = [] := by
  intro univ st h
  rw [List.filter_eq_nil_iff]
  intro b hb
  simp only [decide_eq_true_eq]
  intro hbst
  exact h (hbst ▸ hb)

theorem queueOf_instr_mem (univ : List StateRef) (st : StateRef)
    (hnd : univ.Nodup) (hmem : st ∈ univ) :
    queueOf (instrTab univ) st = [⟨st, 3, silentHandler st⟩, ⟨st, 2, silentHandler st⟩] := by
  unfold queueOf instrTab
  rw [List.filter_append]
  have h1 : ∀ ev : Nat,
      (univ.map (fun u => (⟨u, ev, silentHandler u⟩ : Action))).filter
          (fun a => decide (a.owner = st))
        = [⟨st, ev, silentHandler st⟩] := by
    intro ev
    rw [List.filter_map]
    have : ((fun a => decide (a.owner = st)) ∘ fun u => (⟨u, ev, silentHandler u⟩ : Action))
        = fun u => decide (u = st) := by
      funext u
      rfl
    rw [this, filter_self_of_nodup univ st hnd hmem]
    rfl
  rw [h1 2, h1 3]
  rfl

theorem queueOf_instr_not_mem (univ : List StateRef) (st : StateRef)
    (hmem : st ∉ univ) : queueOf (instrTab univ) st = [] := by
  unfold queueOf instrTab
  rw [List.filter_append]
  have h1 : ∀ ev : Nat,
      (univ.map (fun u => (⟨u, ev, silentHandler u⟩ : Action))).filter
          (fun a => decide (a.owner = st))
        = [] := by
    intro ev
    rw [List.filter_map]
    have : ((fun a => decide (a.owner = st)) ∘ fun u => (⟨u, ev, silentHandler u⟩ : Action))
        = fun u => decide (u = st) := by
      funext u
      rfl
    rw [this, filter_nil_of_not_mem univ st hmem]
    rfl
  rw [h1 2, h1 3]
  rfl

theorem getAction_instr_exit (univ : List StateRef) (st : StateRef)
    (hnd : univ.Nodup) (hmem : st ∈ univ) (hne : st ≠ []) :
    getAction (instrTab univ) st 2 = some ⟨st, 2, silentHandler st⟩ := by
  unfold getAction
  rw [if_neg hne, queueOf_instr_mem univ st hnd hmem]
  rw [scanQueue, if_pos (by simp), scanQueue, if_neg (by simp)]

theorem getAction_instr_entry (univ : List StateRef) (st : StateRef)
    (hnd : univ.Nodup) (hmem : st ∈ univ) (hne : st ≠ []) :
    getAction (instrTab univ) st 3 = some ⟨st, 3, silentHandler st⟩ := by
  unfold getAction
  rw [if_neg hne, queueOf_instr_mem univ st hnd hmem]
  rw [scanQueue, if_neg (by simp)]

theorem getAction_instr_init (univ : List StateRef) (st : StateRef) :
    getAction (instrTab univ) st 4 = none := by
  unfold getAction
  by_cases hne : st = []
  · rw [if_pos hne]
  · rw [if_neg hne]
    by_cases hmem : st ∈ univ
    · by_cases hnd : univ.Nodup
      · rw [queueOf_instr_mem univ st hnd hmem]
        rw [scanQueue, if_pos (by simp), scanQueue, if_pos (by simp), scanQueue]
      · rw [scanQueue_eq_none_iff]
        intro b hb
        have hb' := List.mem_filter.mp (List.mem_reverse.mp hb)
        have : b ∈ instrTab univ := hb'.1
        unfold instrTab at this
        rcases List.mem_append.mp this with h | h <;>
          · obtain ⟨u, _, hu⟩ := List.mem_map.mp h
            rw [← hu]
            simp
    · rw [queueOf_instr_not_mem univ st hmem]
      rfl

/-! ### Running the instrumented tables -/

theorem callHandler_instr (univ : List StateRef) (hnd : univ.Nodup)
    (st : StateRef) (hmem : st ∈ univ) (hne : st ≠ []) (m : Msg) (es : EngineSt)
    (hev : m.event = 2 ∨ m.event = 3) :
    callHandler (instrTab univ) st m es
      = (some st, { es with trace := es.trace ++ [(encodeSt st, m.event)] }) := by
  unfold callHandler
  rcases hev with hev | hev
  · rw [hev, getAction_instr_exit univ st hnd hmem hne]
    simp [runVariant, silentHandler, hev]
  · rw [hev, getAction_instr_entry univ st hnd hmem hne]
    simp [runVariant, silentHandler, hev]

theorem exitLoop_instr (univ : List StateRef) (hnd : univ.Nodup) (m : Msg) :
    ∀ (s : StateRef) (es : EngineSt) (root : StateRef), root <:+ s →
      (∀ st ∈ upChain root s, st ∈ univ) →
      exitLoop (instrTab univ) root m s es
        = some (root, { es with trace := es.trace ++ exitTrace root s }) := by
  intro s
  induction s with
  | nil =>
      intro es root h _
      rw [List.suffix_nil] at h
      subst h
      rw [exitLoop]
      simp [exitTrace, upChain]
  | cons a p ih =>
      intro es root h hmem
      by_cases heq : (a :: p : StateRef) = root
      · rw [exitLoop, if_pos heq, heq]
        have : upChain root root = [] := upChain_self root
        simp [exitTrace, this]
      · have h' : root <:+ p := by
          rcases List.suffix_cons_iff.mp h with h1 | h1
          · exact absurd h1.symm heq
          · exact h1
        have hchain : upChain root (a :: p) = (a :: p) :: upChain root p := by
          rw [upChain, if_neg heq]
        have hmems : (a :: p : StateRef) ∈ univ := by
          apply hmem
          rw [hchain]
          exact List.mem_cons.mpr (Or.inl rfl)
        rw [exitLoop, if_neg heq,
          callHandler_instr univ hnd (a :: p) hmems (by simp) (m.withEvent 2) es
            (Or.inl rfl)]
        rw [ih _ root h' (fun st hst => hmem st (by rw [hchain]; exact List.mem_cons.mpr (Or.inr hst)))]
        simp [exitTrace, hchain, Msg.withEvent]

theorem entryLoop_instr (univ : List StateRef) (hnd : univ.Nodup) (m : Msg)
    (next : StateRef) :
    ∀ (fuel : Nat) (s : StateRef) (es : EngineSt), s <:+ next →
      next.length - s.length ≤ fuel →
      (∀ st ∈ upChain s next, st ∈ univ) →
      entryLoop (instrTab univ) next m fuel s es
        = some (next, { es with trace := es.trace ++ entryTrace s next }) := by
  intro fuel
  induction fuel with
  | zero =>
      intro s es hs hf _
      have hls := hs.length_le
      have : s = next := suffix_eq_of_length hs (by omega)
      subst this
      rw [entryLoop]
      simp [entryTrace, upChain_self]
  | succ fuel ih =>
      intro s es hs hf hmem
      by_cases heq : s = next
      · subst heq
        rw [entryLoop]
        simp [entryTrace, upChain_self]
      · obtain ⟨a, hg, hsuf⟩ := getNext_of_suffix hs heq
        have hext : upChain s next = upChain (a :: s) next ++ [a :: s] :=
          upChain_extend hsuf
        have hmems : (a :: s : StateRef) ∈ univ := by
          apply hmem
          rw [hext]
          simp
        have hlen : next.length - (a :: s).length ≤ fuel := by
          simp only [List.length_cons]
          omega
        rw [entryLoop, if_neg heq, hg,
          callHandler_instr univ hnd (a :: s) hmems (by simp) (m.withEvent 3) es
            (Or.inr rfl)]
        rw [ih (a :: s) _ hsuf hlen
          (fun st hst => hmem st (by rw [hext]; exact List.mem_append.mpr (Or.inl hst)))]
        simp [entryTrace, hext, Msg.withEvent]

theorem transition_instr (univ : List StateRef) (hnd : univ.Nodup)
    (s next sl : StateRef) (tr : Trace) (ok : Bool) (fuel : Nat) (m : Msg)
    (hm1 : ∀ st ∈ upChain (getRoot s next) s, st ∈ univ)
    (hm2 : ∀ st ∈ upChain (getRoot s next) next, st ∈ univ) :
    transitionF (instrTab univ) (fuel + 1) next m ⟨s, sl, tr, ok⟩
      = some ⟨next, next,
          tr ++ (exitTrace (getRoot s next) s ++ entryTrace (getRoot s next) next),
          ok⟩ := by
  rw [transitionF]
  simp only
  rw [exitLoop_instr univ hnd m s ⟨s, sl, tr, ok⟩ (getRoot s next)
    (getRoot_suffix_left s next) hm1]
  simp only
  rw [getLevel_eq_length,
    entryLoop_instr univ hnd m next next.length (getRoot s next) _
      (getRoot_suffix_right s next) (by omega) hm2]
  simp only
  unfold doCallAction resolveCand callHandler
  have h4 : (m.withEvent 4).event = 4 := rfl
  rw [h4, getAction_instr_init univ next]
  simp [List.append_assoc]

/-! ### `callAction` by resolution outcome -/

theorem doCallAction_of_unhandled
    (recT : StateRef → Msg → EngineSt → Option EngineSt) (tab : List Action)
    (cand : StateRef) (m : Msg) (es : EngineSt)
    (h : resolveT tab cand m = .unhandled) :
    doCallAction recT tab cand m es
      = some ((resolveCand tab cand m es).2, false) := by
  unfold doCallAction
  have h1 := resolveCand_fst tab cand m es
  cases hrc : resolveCand tab cand m es with
  | mk r es4 =>
      rw [hrc] at h1
      rw [h] at h1
      simp only at h1
      subst h1
      simp

theorem doCallAction_of_handled
    (recT : StateRef → Msg → EngineSt → Option EngineSt) (tab : List Action)
    (cand : StateRef) (m : Msg) (es : EngineSt)
    (h : resolveT tab cand m = .handled) :
    doCallAction recT tab cand m es
      = some ((resolveCand tab cand m es).2, true) := by
  unfold doCallAction
  have h1 := resolveCand_fst tab cand m es
  cases hrc : resolveCand tab cand m es with
  | mk r es4 =>
      rw [hrc] at h1
      rw [h] at h1
      simp only at h1
      subst h1
      simp

theorem doCallAction_of_redirect
    (recT : StateRef → Msg → EngineSt → Option EngineSt) (tab : List Action)
    (cand : StateRef) (m : Msg) (es : EngineSt) (t : StateRef)
    (h : resolveT tab cand m = .redirect t) :
    doCallAction recT tab cand m es
      = (recT t m { (resolveCand tab cand m es).2 with
            ok := (resolveCand tab cand m es).2.ok && transAssertOk m.event cand t }).map
          (fun e => (e, true)) := by
  unfold doCallAction
  have h1 := resolveCand_fst tab cand m es
  cases hrc : resolveCand tab cand m es with
  | mk r es4 =>
      rw [hrc] at h1
      rw [h] at h1
      simp only at h1
      subst h1
      simp

/-! ### The default descent -/

theorem withEvent_withEvent (m : Msg) (a b : Nat) :
    (m.withEvent a).withEvent b = m.withEvent b := rfl

theorem initDescent_last :
    ∀ (fuel : Nat) (tab : List Action) (m4 : Msg) (st leaf : StateRef),
      initDescent tab m4 fuel st = some leaf →
      ∀ t, resolveT tab leaf m4 ≠ .redirect t := by
  intro fuel
  induction fuel with
  | zero =>
      intro tab m4 st leaf h
      simp [initDescent] at h
  | succ fuel ih =>
      intro tab m4 st leaf h
      rw [initDescent] at h
      cases hres : resolveT tab st m4 with
      | redirect t =>
          rw [hres] at h
          exact ih tab m4 t leaf h
      | unhandled =>
          rw [hres] at h
          simp only at h
          have hst : st = leaf := Option.some.inj h
          subst hst
          intro t ht
          rw [hres] at ht
          cases ht
      | handled =>
          rw [hres] at h
          simp only at h
          have hst : st = leaf := Option.some.inj h
          subst hst
          intro t ht
          rw [hres] at ht
          cases ht

theorem transition_descent :
    ∀ (fuel : Nat) (tab : List Action) (m : Msg) (es : EngineSt)
      (next leaf : StateRef),
      initDescent tab (m.withEvent 4) fuel next = some leaf →
      ∃ es', transitionF tab fuel next m es = some es' ∧ es'.state = leaf := by
  intro fuel
  induction fuel with
  | zero =>
      intro tab m es next leaf h
      simp [initDescent] at h
  | succ fuel ih =>
      intro tab m es next leaf h
      obtain ⟨es1, h1, hs1, _⟩ :=
        exitLoop_some tab m es.state es (getRoot es.state next)
          (getRoot_suffix_left es.state next)
      obtain ⟨es2, h2, hs2, _⟩ :=
        entryLoop_some tab m next (getLevel next) (getRoot es.state next) es1
          (getRoot_suffix_right es.state next)
          (by rw [getLevel_eq_length]; omega)
      rw [transitionF]
      simp only [h1, h2]
      rw [initDescent] at h
      cases hres : resolveT tab next (m.withEvent 4) with
      | unhandled =>
          rw [hres] at h
          have hleaf : next = leaf := Option.some.inj h
          rw [doCallAction_of_unhandled _ tab next (m.withEvent 4) _ hres]
          refine ⟨(resolveCand tab next (m.withEvent 4) { es2 with state := next }).2,
            by simp, ?_⟩
          rw [(resolveCand_preserves tab next (m.withEvent 4)
            { es2 with state := next }).1]
          simpa using hleaf
      | handled =>
          rw [hres] at h
          have hleaf : next = leaf := Option.some.inj h
          rw [doCallAction_of_handled _ tab next (m.withEvent 4) _ hres]
          refine ⟨(resolveCand tab next (m.withEvent 4) { es2 with state := next }).2,
            by simp, ?_⟩
          rw [(resolveCand_preserves tab next (m.withEvent 4)
            { es2 with state := next }).1]
          simpa using hleaf
      | redirect t =>
          rw [hres] at h
          have hdesc : initDescent tab ((m.withEvent 4).withEvent 4) fuel t
              = some leaf := by
            rw [withEvent_withEvent]
            exact h
          obtain ⟨es', h', hst'⟩ := ih tab (m.withEvent 4) _ t leaf hdesc
          rw [doCallAction_of_redirect _ tab next (m.withEvent 4) _ t hres]
          rw [h']
          exact ⟨es', by simp, hst'⟩

/-! ### Bubbling -/

theorem firstHandler_none (tab : List Action) (e : Nat) :
    ∀ cursor : StateRef, (∀ st, st <:+ cursor → getAction tab st e = none) →
      firstHandler tab e cursor = none := by
  intro cursor
  induction cursor with
  | nil => intro _; rfl
  | cons a p ih =>
      intro h
      rw [firstHandler, h (a :: p) List.suffix_rfl]
      simp only [Option.isSome_none, Bool.false_eq_true, if_false]
      exact ih (fun st hst => h st (hst.trans (List.suffix_cons a p)))

theorem bubble_spec (tab : List Action) (fuel : Nat) (m : Msg) :
    ∀ (cursor : StateRef) (es : EngineSt),
      (∀ st, firstHandler tab m.event cursor = some st →
        bubbleF tab fuel m cursor es
          = (doCallAction (transitionF tab fuel) tab st m es).map Prod.fst) ∧
      (firstHandler tab m.event cursor = none →
        ∃ t, bubbleF tab fuel m cursor es = some { es with target := t }) := by
  intro cursor
  induction cursor with
  | nil =>
      intro es
      constructor
      · intro st h
        exact absurd h (by rw [firstHandler]; simp)
      · intro _
        exact ⟨es.target, by rw [bubbleF]⟩
  | cons a p ih =>
      intro es
      by_cases hb : (getAction tab (a :: p) m.event).isSome
      · constructor
        · intro st h
          rw [firstHandler, if_pos hb] at h
          have hst : (a :: p : StateRef) = st := Option.some.inj h
          subst hst
          rw [bubbleF]
          cases hd : doCallAction (transitionF tab fuel) tab (a :: p) m es with
          | none => rfl
          | some r =>
              cases r with
              | mk es1 b =>
                  cases b with
                  | false =>
                      exact absurd hd (doCallAction_ne_false _ tab _ m es es1 hb)
                  | true => rfl
        · intro h
          rw [firstHandler, if_pos hb] at h
          simp at h
      · have hnone : getAction tab (a :: p) m.event = none := by
          cases hga : getAction tab (a :: p) m.event with
          | none => rfl
          | some x => rw [hga] at hb; simp at hb
        constructor
        · intro st h
          rw [firstHandler, if_neg hb] at h
          rw [bubbleF, doCallAction_unbound _ tab _ m es hnone]
          show bubbleF tab fuel m p { es with target := a :: p }
              = (doCallAction (transitionF tab fuel) tab st m es).map Prod.fst
          rw [(ih { es with target := a :: p }).1 st h, doCallAction_target_irrel]
        · intro h
          rw [firstHandler, if_neg hb] at h
          obtain ⟨t, ht⟩ := (ih { es with target := a :: p }).2 h
          refine ⟨t, ?_⟩
          rw [bubbleF, doCallAction_unbound _ tab _ m es hnone]
          show bubbleF tab fuel m p { es with target := a :: p }
              = some { es with target := t }
          rw [ht]

/-! ### Dispatch routing -/

theorem messageF_user (tab : List Action) (fuel : Nat) (m : Msg)
    (s sl : StateRef) (tr : Trace) (ok : Bool)
    (hu : evUser ≤ m.event) (hs : s ≠ []) :
    messageF tab fuel m ⟨s, sl, tr, ok⟩ = bubbleF tab fuel m s ⟨s, sl, tr, ok⟩ := by
  unfold messageF eventHandlerF
  rw [if_pos hu]
  simp [hs, hu]

theorem messageF_stop (tab : List Action) (fuel : Nat) (pl : Nat)
    (s sl : StateRef) (tr : Trace) (ok : Bool) (hs : s ≠ []) :
    messageF tab fuel ⟨1, pl⟩ ⟨s, sl, tr, ok⟩
      = transitionF tab fuel [] defaultMsg ⟨s, sl, tr, ok⟩ := by
  unfold messageF
  have h5 : ¬(evUser ≤ (⟨1, pl⟩ : Msg).event) := by
    simp [evUser]
  rw [if_neg h5]
  simp [evUser, hs]

/-! ## The claims -/

/-- **C8**: for all states `A` and `B`, `getRoot A B` (computed by
equalising depths and walking both chains upward in lockstep) is an
ancestor-or-self of both `A` and `B` (the null state when one side is
absent or no common ancestor exists, since only the empty chain is a
suffix of everything), and it is the deepest such common ancestor: every
common ancestor is an ancestor of it, hence no deeper than it. -/
theorem hsm_c8 (A B : StateRef) :
    getRoot A B <:+ A ∧ getRoot A B <:+ B ∧
      ∀ C : StateRef, C <:+ A → C <:+ B →
        C <:+ getRoot A B ∧ C.length ≤ (getRoot A B).length := by
  obtain ⟨h1, h2, h3⟩ := getRoot_lcs A B
  exact ⟨h1, h2, fun C hCA hCB =>
    ⟨h3 C hCA hCB, (h3 C hCA hCB).length_le⟩⟩

/-- Witness for C8 at the sibling states `[3, 2]` and `[5, 2]`: the
computed least common ancestor is an ancestor of the left argument, and
the common ancestor `[2]` is an ancestor of it. -/
theorem hsm_c8_witness :
    getRoot [3, 2] [5, 2] <:+ [3, 2] ∧ ([2] : StateRef) <:+ getRoot [3, 2] [5, 2] :=
  ⟨(hsm_c8 [3, 2] [5, 2]).1,
    ((hsm_c8 [3, 2] [5, 2]).2.2 [2] ⟨[3], rfl⟩ ⟨[5], rfl⟩).1⟩

/-- Counterexample to **C5** as stated: the claim says an exact match
anywhere in the list takes priority over the `ALL` wildcard, but the scan
of `hsm::Action::getAction` stops at the first entry matching exactly
*or* being `ALL`.  In `c5tab` state `[1]` has an exact binding for event
`5` in its queue (at queue position 1), yet the lookup for event `5`
returns the wildcard binding (event `0`), which sits earlier in the
queue. -/
theorem hsm_c5_cex :
    (getAction c5tab [1] 5).map (fun a => a.event) = some 0 ∧
      ((queueOf c5tab [1])[1]?).map (fun a => a.event) = some 5 :=
  ⟨rfl, rfl⟩

/-- **C5** (amended): the lookup scans only the state's own queue and
returns the first binding (in queue order, which is reverse declaration
order) whose event matches the request exactly *or* is the `ALL`
wildcard — whichever comes first — and none when neither exists or the
state is null. -/
theorem hsm_c5_amended (tab : List Action) (s : StateRef) (e : Nat) :
    (∀ a, getAction tab s e = some a ↔
        (s ≠ [] ∧ (a.event = e ∨ a.event = 0) ∧
          ∃ l1 l2, queueOf tab s = l1 ++ a :: l2 ∧
            ∀ b ∈ l1, ¬(b.event = e ∨ b.event = 0))) ∧
    (getAction tab s e = none ↔
        (s = [] ∨ ∀ b ∈ queueOf tab s, ¬(b.event = e ∨ b.event = 0))) := by
  constructor
  · intro a
    unfold getAction
    by_cases hs : s = []
    · rw [if_pos hs]
      simp [hs]
    · rw [if_neg hs, scanQueue_eq_some_iff]
      simp [hs]
  · unfold getAction
    by_cases hs : s = []
    · rw [if_pos hs]
      simp [hs]
    · rw [if_neg hs, scanQueue_eq_none_iff]
      simp [hs]

/-- Witness for the amended C5 on `c5tab`: the wildcard binding is
returned for event `5` because it is the first matching entry of the
queue. -/
theorem hsm_c5_witness :
    getAction c5tab [1] 5 = some ⟨[1], 0, Variant.state [3, 1]⟩ :=
  ((hsm_c5_amended c5tab [1] 5).1 ⟨[1], 0, Variant.state [3, 1]⟩).mpr
    ⟨by simp, Or.inr rfl, [], [⟨[1], 5, Variant.state [2, 1]⟩], rfl, by simp⟩

/-- **C6** is a code bug: `Action::link` guards re-linking with
`if (next == nullptr)`, but the first binding linked into each state's
queue keeps a null `next` pointer (it is the tail of the list), so a
second linking pass — which happens when `start` is called again after a
`Stop` — re-links it: here, with a one-binding table, the second pass
makes the binding's `next` pointer point to the binding itself, turning
the queue into a cycle instead of leaving it unchanged. -/
theorem hsm_c6_bug :
    linkAll c6tab (linkAll c6tab (initLinkSt c6tab))
        ≠ linkAll c6tab (initLinkSt c6tab) ∧
      (linkAll c6tab (initLinkSt c6tab)).nexts = [none] ∧
      (linkAll c6tab (linkAll c6tab (initLinkSt c6tab))).nexts = [some 0] ∧
      getQueueHead (linkAll c6tab (linkAll c6tab (initLinkSt c6tab))).heads [1]
        = some 0 ∧
      chainFrom (linkAll c6tab (linkAll c6tab (initLinkSt c6tab))).nexts 3
          (getQueueHead (linkAll c6tab (linkAll c6tab (initLinkSt c6tab))).heads [1])
        = [0, 0, 0] := by
  refine ⟨?_, rfl, rfl, rfl, rfl⟩
  decide

/-- **C10**: calling `message` with an event that is neither `Stop` nor a
user event (`ALL`, `Exit`, `Entry` or `Init`) fails the dispatch
assertion (the `ok` flag drops to `false`, which is all a release build
records) and is otherwise a complete no-op: neither dispatch branch runs,
so the active state, the `target` register and the handler trace are
untouched. -/
theorem hsm_c10 (tab : List Action) (fuel : Nat) (m : Msg) (es : EngineSt)
    (h1 : m.event < evUser) (h2 : m.event ≠ 1) :
    messageF tab fuel m es = some { es with ok := false } := by
  have h1' : m.event < 5 := h1
  unfold messageF
  have hne : ¬(evUser ≤ m.event) := by
    intro h
    have h' : 5 ≤ m.event := h
    omega
  rw [if_neg hne, if_neg h2]
  have d1 : decide (m.event = 1) = false := by simp [h2]
  have d2 : decide (evUser ≤ m.event) = false := by
    simp only [decide_eq_false_iff_not]
    exact hne
  simp [d1, d2]

/-- Witness for C10 at the `Entry` event (identifier 3): dispatching it
against an active engine only trips the assertion flag. -/
theorem hsm_c10_witness :
    messageF [] 1 ⟨3, 0⟩ ⟨[1], [], [], true⟩ = some ⟨[1], [], [], false⟩ :=
  hsm_c10 [] 1 ⟨3, 0⟩ ⟨[1], [], [], true⟩ (by decide) (by decide)

/-- **C9**: when resolving a system event (identifier below `User`)
requests a transition, the contract assertion the engine evaluates before
recursing is exactly "the target's parent is the candidate": `callAction`
continues into `transition` with the `ok` flag conjoined with that
immediate-child check.  User events, by contrast, always pass the
assertion, so only they may target arbitrary states. -/
theorem hsm_c9 (recT : StateRef → Msg → EngineSt → Option EngineSt)
    (tab : List Action) (cand : StateRef) (m : Msg) (es es1 : EngineSt)
    (t : StateRef) (hsys : m.event < evUser)
    (hres : resolveCand tab cand m es = (.redirect t, es1)) :
    doCallAction recT tab cand m es
      = (recT t m { es1 with ok := es1.ok && decide (getPrev t = cand) }).map
          (fun e2 => (e2, true)) ∧
      (∀ e2 c u, evUser ≤ e2 → transAssertOk e2 c u = true) := by
  constructor
  · have hT : resolveT tab cand m = .redirect t := by
      have h := resolveCand_fst tab cand m es
      rw [hres] at h
      exact h.symm
    rw [doCallAction_of_redirect recT tab cand m es t hT, hres]
    have ha : transAssertOk m.event cand t = decide (getPrev t = cand) := by
      unfold transAssertOk
      have hd : decide (evUser ≤ m.event) = false := by
        simp only [decide_eq_false_iff_not]
        intro h
        have h' : 5 ≤ m.event := h
        have h'' : m.event < 5 := hsys
        omega
      rw [hd, Bool.false_or]
    rw [ha]
  · intro e2 c u h
    unfold transAssertOk
    simp [h]

/-- Witness for C9: state `[1]` resolves `Init` (a system event) to the
immediate child `[9, 1]`; the assertion check passes and `callAction`
recurses into the supplied transition continuation. -/
theorem hsm_c9_witness :
    doCallAction (fun _ _ es2 => some es2) c9tab [1] ⟨4, 0⟩ ⟨[1], [], [], true⟩
      = some (⟨[1], [1], [], true && decide (getPrev [9, 1] = [1])⟩, true) :=
  (hsm_c9 (fun _ _ es2 => some es2) c9tab [1] ⟨4, 0⟩ ⟨[1], [], [], true⟩
    ⟨[1], [1], [], true⟩ [9, 1] (by decide) (by decide)).1

/-- **C1**: on a table that instruments every relevant state with
side-effect-only `Exit` and `Entry` handlers, a transition from the
active leaf `s` to the target `next` fires the `Exit` handler of exactly
the states on the path from `s` up to (and excluding) the least common
ancestor, in leaf-to-root order, then the `Entry` handler of exactly the
states from below the least common ancestor down to `next`, in
root-to-leaf order; for siblings `x :: p` and `y :: p` the shared
parent's handlers appear in neither cascade. -/
theorem hsm_c1 (univ : List StateRef) (hnd : univ.Nodup) (s next sl : StateRef)
    (tr : Trace) (ok : Bool) (fuel : Nat) (m : Msg)
    (hm1 : ∀ st ∈ upChain (getRoot s next) s, st ∈ univ)
    (hm2 : ∀ st ∈ upChain (getRoot s next) next, st ∈ univ) :
    transitionF (instrTab univ) (fuel + 1) next m ⟨s, sl, tr, ok⟩
      = some ⟨next, next,
          tr ++ (exitTrace (getRoot s next) s ++ entryTrace (getRoot s next) next),
          ok⟩ ∧
    (∀ x y p, s = x :: p → next = y :: p → x ≠ y →
      (encodeSt p, 2) ∉
          exitTrace (getRoot s next) s ++ entryTrace (getRoot s next) next ∧
        (encodeSt p, 3) ∉
          exitTrace (getRoot s next) s ++ entryTrace (getRoot s next) next) := by
  constructor
  · exact transition_instr univ hnd s next sl tr ok fuel m hm1 hm2
  · rintro x y p rfl rfl hxy
    rw [getRoot_sibling p hxy]
    have he : upChain p (x :: p) = [x :: p] := by
      rw [upChain, if_neg (List.cons_ne_self x p), upChain_self]
    have hn : upChain p (y :: p) = [y :: p] := by
      rw [upChain, if_neg (List.cons_ne_self y p), upChain_self]
    unfold exitTrace entryTrace
    rw [he, hn]
    constructor
    · intro hmem
      simp only [List.reverse_singleton, List.map, List.mem_append,
        List.mem_singleton, Prod.mk.injEq] at hmem
      rcases hmem with ⟨henc, _⟩ | ⟨_, h23⟩
      · exact (List.cons_ne_self x p) (encodeSt_inj henc).symm
      · omega
    · intro hmem
      simp only [List.reverse_singleton, List.map, List.mem_append,
        List.mem_singleton, Prod.mk.injEq] at hmem
      rcases hmem with ⟨_, h23⟩ | ⟨henc, _⟩
      · omega
      · exact (List.cons_ne_self y p) (encodeSt_inj henc).symm

/-- Witness for C1: transitioning between the siblings `[10, 1]` and
`[11, 1]` fires exactly the old sibling's `Exit` and the new sibling's
`Entry`; the parent `[1]` has handlers in the table but they do not
fire. -/
theorem hsm_c1_witness :
    transitionF (instrTab [[10, 1], [11, 1], [1]]) 1 [11, 1] ⟨7, 0⟩
        ⟨[10, 1], [], [], true⟩
      = some ⟨[11, 1], [11, 1],
          [] ++ (exitTrace (getRoot [10, 1] [11, 1]) [10, 1]
            ++ entryTrace (getRoot [10, 1] [11, 1]) [11, 1]),
          true⟩ :=
  (hsm_c1 [[10, 1], [11, 1], [1]] (by decide) [10, 1] [11, 1] [] [] true 0 ⟨7, 0⟩
    (by decide) (by decide)).1

/-- **C3**: on an instrumented table, dispatching the reserved `Stop`
event from any active configuration drives the engine to the halted state
(`active = []`), firing the `Exit` handler of the old leaf and of each of
its ancestors exactly once, deepest first (the trace extension is exactly
the exit chain down to the top), with no `Entry` handler firing and the
final `Init` resolution a no-op (the trace and registers show nothing
else). -/
theorem hsm_c3 (univ : List StateRef) (hnd : univ.Nodup) (s sl : StateRef)
    (tr : Trace) (ok : Bool) (fuel pl : Nat) (hs : s ≠ [])
    (hm : ∀ st ∈ upChain [] s, st ∈ univ) :
    messageF (instrTab univ) (fuel + 1) ⟨1, pl⟩ ⟨s, sl, tr, ok⟩
      = some ⟨[], [], tr ++ exitTrace [] s, ok⟩ := by
  rw [messageF_stop _ _ pl s sl tr ok hs]
  have hm1 : ∀ st ∈ upChain (getRoot s []) s, st ∈ univ := by
    rw [getRoot_nil_right]
    exact hm
  have hm2 : ∀ st ∈ upChain (getRoot s []) [], st ∈ univ := by
    intro st hst
    exact absurd hst (List.not_mem_nil st)
  have h := transition_instr univ hnd s [] sl tr ok fuel defaultMsg hm1 hm2
  rw [getRoot_nil_right] at h
  simpa [entryTrace, upChain] using h

/-- Witness for C3: stopping from the two-deep leaf `[3, 2]` exits
`[3, 2]` then `[2]` and halts the engine. -/
theorem hsm_c3_witness :
    messageF (instrTab [[3, 2], [2]]) 1 ⟨1, 0⟩ ⟨[3, 2], [], [], true⟩
      = some ⟨[], [], [] ++ exitTrace [] [3, 2], true⟩ :=
  hsm_c3 [[3, 2], [2]] (by decide) [3, 2] [] [] true 0 0 (by decide) (by decide)

/-- **C2**: a dispatched user event bubbles from the active leaf towards
the root, moving to the parent exactly when the current state has no
binding at all for the event; the first state (leaf upward) with any
binding — exact or wildcard — consumes it: the dispatch result is exactly
`callAction` resolved at that state (whether or not that binding
transitions), and when no state on the chain has a binding the engine
state is unchanged except the scratch `target` register. -/
theorem hsm_c2 (tab : List Action) (fuel : Nat) (m : Msg) (s sl : StateRef)
    (tr : Trace) (ok : Bool) (hu : evUser ≤ m.event) (hs : s ≠ []) :
    (∀ st, firstHandler tab m.event s = some st →
        messageF tab fuel m ⟨s, sl, tr, ok⟩
          = (doCallAction (transitionF tab fuel) tab st m ⟨s, sl, tr, ok⟩).map
              Prod.fst) ∧
    (firstHandler tab m.event s = none →
        ∃ t, messageF tab fuel m ⟨s, sl, tr, ok⟩ = some ⟨s, t, tr, ok⟩) := by
  constructor
  · intro st h
    rw [messageF_user tab fuel m s sl tr ok hu hs]
    exact (bubble_spec tab fuel m s ⟨s, sl, tr, ok⟩).1 st h
  · intro h
    rw [messageF_user tab fuel m s sl tr ok hu hs]
    obtain ⟨t, ht⟩ := (bubble_spec tab fuel m s ⟨s, sl, tr, ok⟩).2 h
    exact ⟨t, ht⟩

/-- Witness for C2: the leaf `[1, 2]` has no binding for user event `7`,
its parent `[2]` does, so the parent consumes the event. -/
theorem hsm_c2_witness :
    messageF c2tab 5 ⟨7, 0⟩ ⟨[1, 2], [], [], true⟩
      = (doCallAction (transitionF c2tab 5) c2tab [2] ⟨7, 0⟩
          ⟨[1, 2], [], [], true⟩).map Prod.fst :=
  (hsm_c2 c2tab 5 ⟨7, 0⟩ [1, 2] [] [] true (by decide) (by decide)).1 [2] (by decide)

/-- **C7**: dispatching a user event for which neither the active leaf
nor any of its ancestors has a binding leaves the active state unchanged
and invokes no handler (the trace is untouched, and no assertion fires);
only the scratch `target` register, meaningless between dispatches, may
differ.  The event is silently dropped. -/
theorem hsm_c7 (tab : List Action) (fuel : Nat) (m : Msg) (s sl : StateRef)
    (tr : Trace) (ok : Bool) (hu : evUser ≤ m.event) (hs : s ≠ [])
    (hnb : ∀ st, st <:+ s → getAction tab st m.event = none) :
    ∃ t, messageF tab fuel m ⟨s, sl, tr, ok⟩ = some ⟨s, t, tr, ok⟩ := by
  rw [messageF_user tab fuel m s sl tr ok hu hs]
  obtain ⟨t, ht⟩ :=
    (bubble_spec tab fuel m s ⟨s, sl, tr, ok⟩).2
      (firstHandler_none tab m.event s hnb)
  exact ⟨t, ht⟩

/-- Witness for C7: no state on the chain of `[1, 2]` binds user event
`8`, so dispatching it changes nothing. -/
theorem hsm_c7_witness :
    ∃ t, messageF c2tab 4 ⟨8, 0⟩ ⟨[1, 2], [], [], true⟩
      = some ⟨[1, 2], t, [], true⟩ :=
  hsm_c7 c2tab 4 ⟨8, 0⟩ [1, 2] [] [] true (by decide) (by decide)
    (by
      intro st hst
      rcases List.suffix_cons_iff.mp hst with rfl | h2
      · rfl
      · rcases List.suffix_cons_iff.mp h2 with rfl | h3
        · rfl
        · rw [List.suffix_nil] at h3
          subst h3
          rfl)

/-- **C4**: starting a halted engine at a parentless root state descends
along the `Init` resolutions: the resulting active state is exactly the
state `initDescent` reaches by repeatedly following `Init`-requested
transitions from the root, and that final state's `Init` resolution
requests no transition. -/
theorem hsm_c4 (tab : List Action) (fuel : Nat) (r : Nat) (es : EngineSt)
    (leaf : StateRef) (hh : es.state = [])
    (hdesc : initDescent tab initMsg fuel [r] = some leaf) :
    (∃ es', startF tab fuel [r] es = some es' ∧ es'.state = leaf) ∧
      ∀ t, resolveT tab leaf initMsg ≠ Resolution.redirect t := by
  constructor
  · have hd : initDescent tab (defaultMsg.withEvent 4) fuel [r] = some leaf :=
      hdesc
    obtain ⟨es', h', hst⟩ :=
      transition_descent fuel tab defaultMsg
        { es with ok := es.ok &&
            (decide (es.state = []) && decide (es.state = getPrev [r])) }
        [r] leaf hd
    refine ⟨es', ?_, hst⟩
    unfold startF
    rw [if_pos (by simpa using hh)]
    exact h'
  · exact initDescent_last fuel tab initMsg [r] leaf hdesc

/-- Witness for C4: starting at the root `[1]` of `c4tab` descends
through the `Init` binding into the leaf `[2, 1]`, whose `Init`
resolution requests nothing. -/
theorem hsm_c4_witness :
    ∃ es', startF c4tab 2 [1] ⟨[], [], [], true⟩ = some es' ∧ es'.state = [2, 1] :=
  (hsm_c4 c4tab 2 1 ⟨[], [], [], true⟩ [2, 1] rfl (by decide)).1

/-! ### The one-time linking builds exactly the reverse-declaration queues

These results justify `queueOf`: reading a state's queue off the pointer
structure produced by a single linking pass yields the owner's bindings
in reverse table order. -/

theorem getQueueHead_cons (o : StateRef) (j : Nat) (hs : List (StateRef × Nat))
    (s : StateRef) :
    getQueueHead ((o, j) :: hs) s = if o = s then some j else getQueueHead hs s := by
  unfold getQueueHead
  rw [List.find?_cons]
  by_cases h : o = s
  · simp [h]
  · simp [h]

theorem chainFrom_congr (nexts nexts' : List (Option Nat)) :
    ∀ (fuel : Nat) (h : Option Nat),
      (∀ j ∈ chainFrom nexts fuel h, nexts'[j]? = nexts[j]?) →
      chainFrom nexts' fuel h = chainFrom nexts fuel h := by
  intro fuel
  induction fuel with
  | zero =>
      intro h _
      cases h <;> rfl
  | succ fuel ih =>
      intro h hagree
      cases h with
      | none => rfl
      | some i =>
          have hi : nexts'[i]? = nexts[i]? := by
            apply hagree
            rw [chainFrom]
            exact List.mem_cons.mpr (Or.inl rfl)
          rw [chainFrom, chainFrom, hi]
          congr 1
          apply ih
          intro j hj
          apply hagree
          rw [chainFrom]
          exact List.mem_cons.mpr (Or.inr hj)

theorem linkOne_eq (tab : List Action) (ls : LinkSt) (i : Nat) (a : Action)
    (h1 : tab[i]? = some a) (h2 : ls.nexts[i]? = some none) :
    linkOne tab ls i
      = ⟨ls.nexts.set i (getQueueHead ls.heads a.owner), (a.owner, i) :: ls.heads⟩ := by
  unfold linkOne
  rw [h1, h2]

theorem linkAll_inv (tab : List Action) :
    ∀ k : Nat, k ≤ tab.length →
      ((List.range k).foldl (linkOne tab) (initLinkSt tab)).nexts.length
          = tab.length ∧
      (∀ i, k ≤ i → i < tab.length →
        ((List.range k).foldl (linkOne tab) (initLinkSt tab)).nexts[i]?
          = some none) ∧
      (∀ (s : StateRef) (fuel : Nat), k ≤ fuel →
        chainFrom ((List.range k).foldl (linkOne tab) (initLinkSt tab)).nexts fuel
            (getQueueHead
              ((List.range k).foldl (linkOne tab) (initLinkSt tab)).heads s)
          = ((List.range k).filter
              (fun i => decide (tab[i]?.map Action.owner = some s))).reverse) := by
  intro k
  induction k with
  | zero =>
      intro _
      refine ⟨by simp [initLinkSt], ?_, ?_⟩
      · intro i _ hi
        simp [initLinkSt, List.getElem?_replicate, hi]
      · intro s fuel _
        show chainFrom (initLinkSt tab).nexts fuel none = _
        cases fuel <;> rfl
  | succ k ih =>
      intro hk1
      have hk : k < tab.length := by omega
      obtain ⟨ih1, ih2, ih3⟩ := ih (Nat.le_of_lt hk)
      have hfold : (List.range (k + 1)).foldl (linkOne tab) (initLinkSt tab)
          = linkOne tab ((List.range k).foldl (linkOne tab) (initLinkSt tab)) k := by
        rw [List.range_succ, List.foldl_append]
        rfl
      have htab : tab[k]? = some tab[k] := List.getElem?_eq_getElem hk
      have hnk : ((List.range k).foldl (linkOne tab) (initLinkSt tab)).nexts[k]?
          = some none := ih2 k (Nat.le_refl k) hk
      have hlink : linkOne tab ((List.range k).foldl (linkOne tab) (initLinkSt tab)) k
          = ⟨((List.range k).foldl (linkOne tab) (initLinkSt tab)).nexts.set k
                (getQueueHead
                  ((List.range k).foldl (linkOne tab) (initLinkSt tab)).heads
                  tab[k].owner),
              (tab[k].owner, k)
                :: ((List.range k).foldl (linkOne tab) (initLinkSt tab)).heads⟩ :=
        linkOne_eq tab _ k tab[k] htab hnk
      rw [hfold, hlink]
      have hkl : k < ((List.range k).foldl (linkOne tab) (initLinkSt tab)).nexts.length := by
        rw [ih1]
        exact hk
      refine ⟨by simp [List.length_set, ih1], ?_, ?_⟩
      · intro i hik hin
        simp only
        rw [List.getElem?_set, if_neg (by omega)]
        exact ih2 i (by omega) hin
      · intro s fuel hfuel
        obtain ⟨f, rfl⟩ : ∃ f, fuel = f + 1 := ⟨fuel - 1, by omega⟩
        have hrange : (List.range (k + 1)).filter
              (fun i => decide (tab[i]?.map Action.owner = some s))
            = (List.range k).filter
                (fun i => decide (tab[i]?.map Action.owner = some s))
              ++ (if tab[k].owner = s then [k] else []) := by
          rw [List.range_succ, List.filter_append]
          congr 1
          by_cases h : tab[k].owner = s
          · simp [htab, h]
          · simp [htab, h]
        simp only
        rw [getQueueHead_cons]
        by_cases hos : tab[k].owner = s
        · rw [if_pos hos]
          rw [chainFrom]
          have hset : (((List.range k).foldl (linkOne tab) (initLinkSt tab)).nexts.set k
                (getQueueHead
                  ((List.range k).foldl (linkOne tab) (initLinkSt tab)).heads
                  tab[k].owner))[k]?
              = some (getQueueHead
                  ((List.range k).foldl (linkOne tab) (initLinkSt tab)).heads
                  tab[k].owner) := by
            rw [List.getElem?_set, if_pos rfl, if_pos hkl]
          rw [hset]
          simp only [Option.getD_some]
          have hcongr := chainFrom_congr
            ((List.range k).foldl (linkOne tab) (initLinkSt tab)).nexts
            (((List.range k).foldl (linkOne tab) (initLinkSt tab)).nexts.set k
              (getQueueHead
                ((List.range k).foldl (linkOne tab) (initLinkSt tab)).heads
                tab[k].owner))
            f
            (getQueueHead
              ((List.range k).foldl (linkOne tab) (initLinkSt tab)).heads
              tab[k].owner)
            (by
              intro j hj
              have hjk : j < k := by
                rw [ih3 tab[k].owner f (by omega)] at hj
                have h1 := List.mem_reverse.mp hj
                have h2 := (List.mem_filter.mp h1).1
                exact List.mem_range.mp h2
              rw [List.getElem?_set, if_neg (by omega)])
          rw [hcongr, ih3 tab[k].owner f (by omega)]
          rw [hos] at hrange ⊢
          rw [hrange, if_pos rfl, List.reverse_append]
          rfl
        · rw [if_neg hos]
          have hcongr := chainFrom_congr
            ((List.range k).foldl (linkOne tab) (initLinkSt tab)).nexts
            (((List.range k).foldl (linkOne tab) (initLinkSt tab)).nexts.set k
              (getQueueHead
                ((List.range k).foldl (linkOne tab) (initLinkSt tab)).heads
                tab[k].owner))
            (f + 1)
            (getQueueHead
              ((List.range k).foldl (linkOne tab) (initLinkSt tab)).heads s)
            (by
              intro j hj
              have hjk : j < k := by
                rw [ih3 s (f + 1) (by omega)] at hj
                have h1 := List.mem_reverse.mp hj
                have h2 := (List.mem_filter.mp h1).1
                exact List.mem_range.mp h2
              rw [List.getElem?_set, if_neg (by omega)])
          rw [hcongr, ih3 s (f + 1) (by omega)]
          rw [hrange, if_neg hos]
          simp

theorem linkAll_chain (tab : List Action) (s : StateRef) :
    chainFrom (linkAll tab (initLinkSt tab)).nexts tab.length
        (getQueueHead (linkAll tab (initLinkSt tab)).heads s)
      = ((List.range tab.length).filter
          (fun i => decide (tab[i]?.map Action.owner = some s))).reverse :=
  (linkAll_inv tab tab.length (Nat.le_refl _)).2.2 s tab.length (Nat.le_refl _)

theorem range_filter_owner (s : StateRef) :
    ∀ tab : List Action,
      ((List.range tab.length).filter
          (fun i => decide (tab[i]?.map Action.owner = some s))).map
            (fun i => tab[i]?)
        = (tab.filter (fun a => decide (a.owner = s))).map some := by
  intro tab
  induction tab with
  | nil => rfl
  | cons a tab' ih =>
      rw [List.length_cons, List.range_succ_eq_map, List.filter_cons,
        List.filter_map, List.filter_cons]
      by_cases h : a.owner = s
      · rw [if_pos (by simp [h]), if_pos (by simp [h])]
        simp only [List.map_cons, List.map_map]
        congr 1
        · simp
        · simpa [Function.comp_def, List.getElem?_cons_succ] using ih
      · rw [if_neg (by simp [h]), if_neg (by simp [h])]
        simp only [List.map_map]
        simpa [Function.comp_def, List.getElem?_cons_succ] using ih

/-- Reading any state's queue off the pointer structure built by a single
linking pass (`linkAll` from the all-null `initLinkSt`) and dereferencing
the collected indices gives exactly `queueOf`: the owner's bindings in
reverse declaration order. -/
theorem linkAll_queueOf (tab : List Action) (s : StateRef) :
    (chainFrom (linkAll tab (initLinkSt tab)).nexts tab.length
        (getQueueHead (linkAll tab (initLinkSt tab)).heads s)).map
          (fun i => tab[i]?)
      = (queueOf tab s).map some := by
  rw [linkAll_chain, queueOf, List.map_reverse, range_filter_owner s tab,
    ← List.map_reverse]

end Hsm

